import Mathlib

set_option maxRecDepth 20000

/-!
Shallow embedding of `yt_views_sum.py` (a YouTube search-results view-count
scraper).  The DOM/browser side is an external collaborator and is out of
scope; what is embedded here is the pure logic:

* `parse_view_count` — the magnitude parser built on the regex
  `(?ix) (?P<num>\d+(?:\.\d+)?) \s* (?P<suffix>[kmb])? \s* views`
  applied to `text.strip().lower().replace(",", "")`, followed by
  `int(float(num) * mult)` computed in IEEE-754 binary64 arithmetic,
  which is modelled exactly (round to nearest, ties to even) over ℕ/ℤ.
* the first-seen-wins result-set merge (`dict.setdefault` /
  `if url in results: continue`),
* `scroll_and_collect` — the scroll/extract convergence loop,
* the report builder from `main` (`sum`, `len`,
  `sorted(items, key=value, reverse=True)[:top]` under
  `if args.top and len(all_results) > 0`).
-/

/-! ### ASCII character classes (the inputs in scope are ASCII) -/

def isDigitA (c : Char) : Bool := '0' ≤ c && c ≤ '9'

/-- Python `\s` (and `str.strip`) on ASCII: space, tab, newline, carriage
return, vertical tab, form feed. -/
def isSpaceA (c : Char) : Bool :=
  c = ' ' || c = '\t' || c = '\n' || c = '\r' || c = '\u000B' || c = '\u000C'

/-- Python `str.lower` restricted to ASCII. -/
def toLowerA : Char → Char
  | 'A' => 'a' | 'B' => 'b' | 'C' => 'c' | 'D' => 'd' | 'E' => 'e' | 'F' => 'f'
  | 'G' => 'g' | 'H' => 'h' | 'I' => 'i' | 'J' => 'j' | 'K' => 'k' | 'L' => 'l'
  | 'M' => 'm' | 'N' => 'n' | 'O' => 'o' | 'P' => 'p' | 'Q' => 'q' | 'R' => 'r'
  | 'S' => 's' | 'T' => 't' | 'U' => 'u' | 'V' => 'v' | 'W' => 'w' | 'X' => 'x'
  | 'Y' => 'y' | 'Z' => 'z'
  | c => c

/-- Python `str.strip()` (default whitespace). -/
def stripA (l : List Char) : List Char :=
  ((l.dropWhile isSpaceA).reverse.dropWhile isSpaceA).reverse

/-- `text.strip().lower().replace(",", "")` — the normalization the parser
applies before running the regex. -/
def normalizeText (l : List Char) : List Char :=
  ((stripA l).map toLowerA).filter (fun c => c != ',')

/-! ### The regex matcher

`VIEW_RE.search` on the (already lowercased) normalized text.  The pattern is
`num \s* [kmb]? \s* views` with `num = \d+(\.\d+)?`.  Whitespace runs are
forced maximal (the characters that may follow `\s*` are never whitespace),
so the only genuine backtracking is: try the suffix before no-suffix, and try
the fractional part before dropping it. `search` scans start positions left
to right. -/

def matchViews : List Char → Bool
  | 'v' :: 'i' :: 'e' :: 'w' :: 's' :: _ => true
  | _ => false

/-- Match `\s* [kmb]? \s* views` and return the suffix group. -/
def matchRest (s : List Char) : Option (Option Char) :=
  let s1 := s.dropWhile isSpaceA
  match s1 with
  | c :: rest =>
    if c = 'k' ∨ c = 'm' ∨ c = 'b' then
      if matchViews (rest.dropWhile isSpaceA) then some (some c)
      else if matchViews s1 then some none
      else none
    else if matchViews s1 then some none else none
  | [] => none

/-- Try to match the whole pattern at this position; returns
(integer digits, fraction digits, suffix). -/
def matchAt (s : List Char) : Option (List Char × List Char × Option Char) :=
  let ds := s.takeWhile isDigitA
  let r1 := s.dropWhile isDigitA
  if ds = [] then none
  else
    match r1 with
    | '.' :: r2 =>
      let fs := r2.takeWhile isDigitA
      let r3 := r2.dropWhile isDigitA
      if fs = [] then (matchRest r1).map (fun suf => (ds, [], suf))
      else
        match matchRest r3 with
        | some suf => some (ds, fs, suf)
        | none => (matchRest r1).map (fun suf => (ds, ([] : List Char), suf))
    | _ => (matchRest r1).map (fun suf => (ds, [], suf))

/-- `re.search`: leftmost match wins. -/
def searchView : List Char → Option (List Char × List Char × Option Char)
  | [] => none
  | c :: rest =>
    match matchAt (c :: rest) with
    | some r => some r
    | none => searchView rest

def digitVal (c : Char) : ℕ := c.toNat - 48

def natOfDigits (l : List Char) : ℕ := l.foldl (fun a c => 10 * a + digitVal c) 0

/-- The multiplier chain `mult = 1; if suffix == "k": ...`. -/
def multOf : Option Char → ℕ
  | some 'k' => 1000
  | some 'm' => 1000000
  | some 'b' => 1000000000
  | _ => 1

/-! ### Exact model of IEEE-754 binary64 (CPython floats)

A finite nonnegative double is `m * 2^e` with `m < 2^53` (and `m = 0` for
zero).  `fpRoundRat num den sh` rounds the exact rational
`(num / den) * 2^sh` to the nearest double, ties to even, returning `none`
exactly when the rounded result overflows to infinity.  This models both
`float(decimal_string)` (correctly rounded in CPython) and the product
`float * int_multiplier` (one IEEE multiplication, i.e. one rounding of the
exact product). -/

def roundHalfEven (num den : ℕ) : ℕ :=
  let q := num / den
  let r := num % den
  if 2 * r < den then q
  else if den < 2 * r then q + 1
  else if q % 2 = 0 then q else q + 1

/-- Fuel-driven floor of log₂ (structural, so concrete instances reduce). -/
def log2F : ℕ → ℕ → ℕ
  | 0, _ => 0
  | fuel + 1, n => if 2 ≤ n then log2F fuel (n / 2) + 1 else 0

def natLog2 (n : ℕ) : ℕ := log2F n n

/-- Is `num ≥ den * 2^t` (with `t : ℤ`)? -/
def geScaled (num den : ℕ) (t : ℤ) : Bool :=
  if 0 ≤ t then decide (den * 2 ^ t.toNat ≤ num)
  else decide (den ≤ num * 2 ^ (-t).toNat)

/-- Round `num * 2^t / den` to the nearest integer, ties to even. -/
def divRound (num den : ℕ) (t : ℤ) : ℕ :=
  if 0 ≤ t then roundHalfEven (num * 2 ^ t.toNat) den
  else roundHalfEven num (den * 2 ^ (-t).toNat)

structure Fp where
  m : ℕ
  e : ℤ
deriving DecidableEq

/-- Renormalize a rounded significand and apply the overflow cutoff
(`e > 971` means the value is at least `2^1024`, i.e. infinity). -/
def fpPost (m : ℕ) (e : ℤ) : Option Fp :=
  if m = 2 ^ 53 then (if 971 < e + 1 then none else some ⟨2 ^ 52, e + 1⟩)
  else if 971 < e then none else some ⟨m, e⟩

/-- Binary exponent such that rounding `(num/den) * 2^sh / 2^e` yields a
53-bit significand (`⌊log₂((num/den) * 2^sh)⌋ - 52`). -/
def fpExp2 (num den : ℕ) (sh : ℤ) : ℤ :=
  if geScaled num den ((natLog2 num : ℤ) - (natLog2 den : ℤ)) then
    sh + (natLog2 num : ℤ) - (natLog2 den : ℤ) - 52
  else sh + (natLog2 num : ℤ) - (natLog2 den : ℤ) - 53

/-- Nearest binary64 to `(num / den) * 2^sh` (`num ≥ 0`, `den ≥ 1`).
The exponent is floored at `-1074` (gradual underflow). -/
def fpRoundRat (num den : ℕ) (sh : ℤ) : Option Fp :=
  if num = 0 then some ⟨0, 0⟩
  else
    fpPost (divRound num den (sh - max (fpExp2 num den sh) (-1074)))
      (max (fpExp2 num den sh) (-1074))

/-- Python `int()` applied to a nonnegative finite double: truncation. -/
def truncFp (f : Fp) : ℕ :=
  if 0 ≤ f.e then f.m * 2 ^ f.e.toNat else f.m / 2 ^ (-f.e).toNat

/-! ### `parse_view_count`

`Except.error ()` models the `OverflowError` that `int(float('inf'))` raises
(reachable only for astronomically long digit tokens); `.ok none` is the
`return None` path; `.ok (some v)` a parsed count. -/

def parseChars (text : List Char) : Except Unit (Option ℕ) :=
  if text = [] then .ok none
  else
    match searchView (normalizeText text) with
    | none => .ok none
    | some (ds, fs, suf) =>
      match fpRoundRat (natOfDigits (ds ++ fs)) (10 ^ fs.length) 0 with
      | none => .error ()
      | some f =>
        match fpRoundRat (f.m * multOf suf) 1 f.e with
        | none => .error ()
        | some p => .ok (some (truncFp p))

def parse_view_count (text : String) : Except Unit (Option ℕ) :=
  parseChars text.data

/-! ### ResultSet: first-seen-wins mapping

Python dicts preserve insertion order, so a ResultSet is an association
list; `rsInsert` is both `results.setdefault(url, views)` (the cross-pass
merge in `scroll_and_collect`) and the `if url in results: continue` /
`results[url] = vc` pattern inside `extract_video_cards`. -/

def rsInsert (rs : List (String × ℕ)) (url : String) (views : ℕ) :
    List (String × ℕ) :=
  if rs.any (fun p => p.1 == url) then rs else rs ++ [(url, views)]

/-- `for url, views in batch.items(): all_results.setdefault(url, views)`. -/
def mergeBatch (rs batch : List (String × ℕ)) : List (String × ℕ) :=
  batch.foldl (fun acc p => rsInsert acc p.1 p.2) rs

/-- `results[url]` as an optional lookup. -/
def findVal (rs : List (String × ℕ)) (url : String) : Option ℕ :=
  (rs.find? (fun p => p.1 == url)).map (fun p => p.2)

/-! ### Report builder (from `main`) -/

/-- `sum(all_results.values())`. -/
def totalViews (rs : List (String × ℕ)) : ℕ := (rs.map (fun p => p.2)).sum

/-- `len(all_results)`. -/
def reportCount (rs : List (String × ℕ)) : ℕ := rs.length

/-- Stable insertion step for descending order by view count: an earlier
entry stays in front of every later entry with an equal or smaller count. -/
def insertDesc (x : String × ℕ) : List (String × ℕ) → List (String × ℕ)
  | [] => [x]
  | y :: ys => if y.2 ≤ x.2 then x :: y :: ys else y :: insertDesc x ys

/-- `sorted(all_results.items(), key=lambda kv: kv[1], reverse=True)` —
Python's sort is stable, also with `reverse=True`. -/
def sortDesc (rs : List (String × ℕ)) : List (String × ℕ) :=
  rs.foldr insertDesc []

/-- Python slicing `lst[:n]` for an arbitrary integer `n`. -/
def pySliceTo (l : List (String × ℕ)) (n : ℤ) : List (String × ℕ) :=
  if 0 ≤ n then l.take n.toNat else l.take (l.length - (-n).toNat)

/-- The ranked top sequence that `main` prints:
`if args.top and len(all_results) > 0: sorted(...)[: args.top]`,
and nothing otherwise. -/
def topItems (rs : List (String × ℕ)) (top : ℤ) : List (String × ℕ) :=
  if top ≠ 0 ∧ 0 < rs.length then pySliceTo (sortDesc rs) top else []

/-! ### Convergence loop (`scroll_and_collect`)

The page is abstracted as the card source `b : ℕ → List (String × ℕ)`:
`b n` is what `extract_video_cards(page)` yields in round `n` (rounds are
numbered from 0 internally; the progress line prints `n+1`).  The event
trace records the order of extractions and scroll commands.  `time.sleep`
only suspends the thread, so the pause duration does not influence the
state; it is kept as an (unused) argument for faithfulness to the
signature. -/

inductive LEvent where
  | extract (n : ℕ)
  | scroll
deriving DecidableEq

structure LoopResult where
  results : List (String × ℕ)
  rounds : ℕ
  scrolls : ℕ
  converged : Bool
  events : List LEvent
deriving DecidableEq

def loopGo (b : ℕ → List (String × ℕ)) (sr : ℤ) :
    ℕ → ℕ → ℤ → List (String × ℕ) → ℕ → List LEvent → LoopResult
  | 0, n, _, acc, scrolls, evs => ⟨acc, n, scrolls, false, evs⟩
  | fuel + 1, n, stable, acc, scrolls, evs =>
    let acc2 := mergeBatch acc (b n)
    let gained := acc2.length - acc.length
    let stable2 := if gained = 0 then stable + 1 else 0
    if sr ≤ stable2 then
      ⟨acc2, n + 1, scrolls, true, evs ++ [LEvent.extract n]⟩
    else
      loopGo b sr fuel (n + 1) stable2 acc2 (scrolls + 1)
        (evs ++ [LEvent.extract n, LEvent.scroll])

/-- `scroll_and_collect(page, max_scrolls, scroll_pause, stable_rounds)`:
`for n in range(max_scrolls)` (empty for nonpositive bounds), merge the
extracted batch, update the stability streak, `break` once
`stable >= stable_rounds`, otherwise scroll and sleep. -/
def scroll_and_collect (b : ℕ → List (String × ℕ)) (max_scrolls : ℤ)
    (_scroll_pause : ℚ) (stable_rounds : ℤ) : LoopResult :=
  loopGo b stable_rounds max_scrolls.toNat 0 0 [] 0 []

/-! Declarative view of the loop used to state convergence claims. -/

/-- The result set accumulated after the first `n` rounds. -/
def unionUpTo (b : ℕ → List (String × ℕ)) : ℕ → List (String × ℕ)
  | 0 => []
  | n + 1 => mergeBatch (unionUpTo b n) (b n)

/-- The no-growth streak directly after round `n` (1-based rounds). -/
def streakAt (b : ℕ → List (String × ℕ)) : ℕ → ℤ
  | 0 => 0
  | n + 1 =>
    if (mergeBatch (unionUpTo b n) (b n)).length - (unionUpTo b n).length = 0
    then streakAt b n + 1 else 0

/-- Event trace of `c` completed (non-final) rounds starting at round `n`. -/
def evRun (n : ℕ) : ℕ → List LEvent
  | 0 => []
  | c + 1 => LEvent.extract n :: LEvent.scroll :: evRun (n + 1) c

/-! Concrete card sources used in scenarios. -/

/-- A page that never yields any card. -/
def emptySource : ℕ → List (String × ℕ) := fun _ => []

/-- A page yielding one new card in each of rounds 1 and 2, then nothing
new (the spec's convergence scenario). -/
def twoRoundSource : ℕ → List (String × ℕ)
  | 0 => [("https://www.youtube.com/watch?v=a", 100)]
  | 1 => [("https://www.youtube.com/watch?v=b", 200)]
  | _ => []

/-- A page whose first round yields one card. -/
def oneCardSource : ℕ → List (String × ℕ) := fun _ => [("https://www.youtube.com/watch?v=a", 7)]

/-! ### Closed form of the convergence loop

The loop run from round `n` with the invariant state
(`streakAt b n`, `unionUpTo b n`) stops at the first round `k` whose streak
meets the threshold, if such a round exists within the remaining fuel, and
runs the fuel out otherwise. -/

theorem loopGo_spec (b : ℕ → List (String × ℕ)) (sr : ℤ) :
    ∀ fuel n scrolls evs,
    loopGo b sr fuel n (streakAt b n) (unionUpTo b n) scrolls evs =
      match (List.range' (n + 1) fuel).find? (fun k => decide (sr ≤ streakAt b k)) with
      | some k => ⟨unionUpTo b k, k, scrolls + (k - (n + 1)), true,
                   evs ++ evRun n (k - (n + 1)) ++ [LEvent.extract (k - 1)]⟩
      | none => ⟨unionUpTo b (n + fuel), n + fuel, scrolls + fuel, false,
                 evs ++ evRun n fuel⟩ := by
  intro fuel
  induction fuel with
  | zero =>
    intro n scrolls evs
    simp [loopGo, List.range', evRun]
  | succ fuel ih =>
    intro n scrolls evs
    have hrange : List.range' (n + 1) (fuel + 1) = (n + 1) :: List.range' (n + 2) fuel :=
      List.range'_succ (n + 1) fuel 1
    have hstep : loopGo b sr (fuel + 1) n (streakAt b n) (unionUpTo b n) scrolls evs =
        if sr ≤ streakAt b (n + 1) then
          ⟨unionUpTo b (n + 1), n + 1, scrolls, true, evs ++ [LEvent.extract n]⟩
        else loopGo b sr fuel (n + 1) (streakAt b (n + 1)) (unionUpTo b (n + 1))
            (scrolls + 1) (evs ++ [LEvent.extract n, LEvent.scroll]) := rfl
    rw [hstep, hrange]
    by_cases hc : sr ≤ streakAt b (n + 1)
    · rw [if_pos hc, List.find?_cons_of_pos _ (by simpa using hc)]
      simp [evRun]
    · rw [if_neg hc, List.find?_cons_of_neg _ (by simpa using hc),
        ih (n + 1) (scrolls + 1) (evs ++ [LEvent.extract n, LEvent.scroll])]
      cases hf : (List.range' (n + 2) fuel).find? (fun k => decide (sr ≤ streakAt b k)) with
      | some k =>
        have hk : n + 2 ≤ k ∧ k < n + 2 + fuel :=
          List.mem_range'_1.1 (List.mem_of_find?_eq_some hf)
        simp only
        have hsub : k - (n + 1) = (k - (n + 2)) + 1 := by omega
        rw [hsub]
        simp only [evRun]
        congr 1
        · omega
        · simp
      | none =>
        simp only
        have h1 : n + 1 + fuel = n + (fuel + 1) := by omega
        rw [h1]
        simp only [evRun]
        congr 1
        · omega
        · simp

/-- Closed form of `scroll_and_collect`. -/
theorem scroll_and_collect_eq (b : ℕ → List (String × ℕ)) (ms : ℤ) (sp : ℚ) (sr : ℤ) :
    scroll_and_collect b ms sp sr =
      match (List.range' 1 ms.toNat).find? (fun k => decide (sr ≤ streakAt b k)) with
      | some k => ⟨unionUpTo b k, k, k - 1, true,
                   evRun 0 (k - 1) ++ [LEvent.extract (k - 1)]⟩
      | none => ⟨unionUpTo b ms.toNat, ms.toNat, ms.toNat, false, evRun 0 ms.toNat⟩ := by
  have h := loopGo_spec b sr ms.toNat 0 0 []
  unfold scroll_and_collect
  rw [show (loopGo b sr ms.toNat 0 0 [] 0 [] : LoopResult)
      = loopGo b sr ms.toNat 0 (streakAt b 0) (unionUpTo b 0) 0 [] from rfl, h]
  simp only [Nat.zero_add]
  cases hf : (List.range' 1 ms.toNat).find? (fun k => decide (sr ≤ streakAt b k)) with
  | some k => simp
  | none => simp

/-- `find?` over `range'` finds the least index satisfying the predicate. -/
theorem find?_range'_min (p : ℕ → Bool) :
    ∀ (cnt s k : ℕ), (List.range' s cnt).find? p = some k →
      s ≤ k ∧ k < s + cnt ∧ p k = true ∧ ∀ j, s ≤ j → j < k → p j = false := by
  intro cnt
  induction cnt with
  | zero => intro s k h; simp [List.range'] at h
  | succ cnt ih =>
    intro s k h
    rw [List.range'_succ] at h
    by_cases hs : p s = true
    · rw [List.find?_cons_of_pos _ hs] at h
      injection h with h
      subst h
      exact ⟨le_refl s, by omega, hs, fun j h1 h2 => by omega⟩
    · rw [List.find?_cons_of_neg _ hs] at h
      obtain ⟨h1, h2, h3, h4⟩ := ih (s + 1) k h
      refine ⟨by omega, by omega, h3, fun j hj1 hj2 => ?_⟩
      by_cases hjs : j = s
      · subst hjs; exact Bool.eq_false_iff.2 hs
      · exact h4 j (by omega) hj2

/-- `find?` over `range'` succeeds iff some index satisfies the predicate. -/
theorem find?_range'_isSome (p : ℕ → Bool) :
    ∀ (cnt s : ℕ), (((List.range' s cnt).find? p).isSome ↔
      ∃ k, s ≤ k ∧ k < s + cnt ∧ p k = true) := by
  intro cnt
  induction cnt with
  | zero =>
    intro s
    simp only [List.range']
    constructor
    · intro h; simp [List.find?] at h
    · intro ⟨k, h1, h2, _⟩; omega
  | succ cnt ih =>
    intro s
    rw [List.range'_succ]
    by_cases hs : p s = true
    · rw [List.find?_cons_of_pos _ hs]
      simp only [Option.isSome_some, true_iff]
      exact ⟨s, le_refl s, by omega, hs⟩
    · rw [List.find?_cons_of_neg _ hs]
      rw [ih (s + 1)]
      constructor
      · intro ⟨k, h1, h2, h3⟩; exact ⟨k, by omega, by omega, h3⟩
      · intro ⟨k, h1, h2, h3⟩
        refine ⟨k, ?_, by omega, h3⟩
        rcases Nat.eq_or_lt_of_le h1 with he | hl
        · exact absurd (he ▸ h3) hs
        · omega

/-! ### Lemmas about the first-seen-wins merge -/

theorem find?_append_some {α : Type} {p : α → Bool} {l1 l2 : List α} {x : α}
    (h : l1.find? p = some x) : (l1 ++ l2).find? p = some x := by
  rw [List.find?_append, h]; rfl

theorem findVal_rsInsert {rs : List (String × ℕ)} {u : String} {v : ℕ}
    (h : findVal rs u = some v) (u2 : String) (w : ℕ) :
    findVal (rsInsert rs u2 w) u = some v := by
  unfold rsInsert
  split
  · exact h
  · unfold findVal at h ⊢
    cases hf : rs.find? (fun p => p.1 == u) with
    | none => rw [hf] at h; simp at h
    | some x => rw [hf] at h; rw [find?_append_some hf]; exact h

theorem findVal_mergeBatch {rs : List (String × ℕ)} {u : String} {v : ℕ}
    (h : findVal rs u = some v) (batch : List (String × ℕ)) :
    findVal (mergeBatch rs batch) u = some v := by
  induction batch generalizing rs with
  | nil => exact h
  | cons p t ih => exact ih (findVal_rsInsert h p.1 p.2)

theorem rsInsert_of_absent {rs : List (String × ℕ)} {u : String} (v : ℕ)
    (h : findVal rs u = none) : rsInsert rs u v = rs ++ [(u, v)] := by
  unfold findVal at h
  have hf : rs.find? (fun p => p.1 == u) = none := by
    cases hf : rs.find? (fun p => p.1 == u) with
    | none => rfl
    | some x => rw [hf] at h; simp at h
  rw [List.find?_eq_none] at hf
  have hany : rs.any (fun p => p.1 == u) = false := by
    rw [Bool.eq_false_iff]
    intro hx
    rw [List.any_eq_true] at hx
    obtain ⟨x, hmem, hx⟩ := hx
    exact hf x hmem hx
  unfold rsInsert
  rw [hany]
  simp

theorem findVal_last {rs : List (String × ℕ)} {u : String} (v : ℕ)
    (h : findVal rs u = none) : findVal (rs ++ [(u, v)]) u = some v := by
  unfold findVal at h ⊢
  have hf : rs.find? (fun p => p.1 == u) = none := by
    cases hf : rs.find? (fun p => p.1 == u) with
    | none => rfl
    | some x => rw [hf] at h; simp at h
  rw [List.find?_append, hf]
  simp [List.find?]

/-- With pairwise-distinct keys (which `extract_video_cards` guarantees for
its batches), merging into a disjoint accumulator is plain concatenation. -/
theorem mergeBatch_of_nodup :
    ∀ (batch acc : List (String × ℕ)),
      ((acc.map Prod.fst ++ batch.map Prod.fst).Nodup) →
      mergeBatch acc batch = acc ++ batch := by
  intro batch
  induction batch with
  | nil => intro acc _; simp [mergeBatch]
  | cons p t ih =>
    intro acc hnd
    have hu : p.1 ∉ acc.map Prod.fst := by
      rw [List.nodup_append] at hnd
      intro hmem
      exact hnd.2.2 hmem (by simp)
    have hnone : findVal acc p.1 = none := by
      unfold findVal
      cases hf : acc.find? (fun q => q.1 == p.1) with
      | none => rfl
      | some x =>
        exfalso
        have hx := List.find?_some hf
        have hmem := List.mem_of_find?_eq_some hf
        apply hu
        simp only [beq_iff_eq] at hx
        exact hx ▸ List.mem_map_of_mem Prod.fst hmem
    have step : mergeBatch acc (p :: t) = mergeBatch (acc ++ [(p.1, p.2)]) t := by
      show mergeBatch (rsInsert acc p.1 p.2) t = _
      rw [rsInsert_of_absent p.2 hnone]
    rw [step]
    have : acc ++ p :: t = (acc ++ [(p.1, p.2)]) ++ t := by simp
    rw [this]
    apply ih
    have : (acc ++ [(p.1, p.2)]).map Prod.fst ++ t.map Prod.fst
        = acc.map Prod.fst ++ p.1 :: t.map Prod.fst := by simp
    rw [this]
    simpa using hnd

/-! ### Lemmas about the stable descending sort -/

theorem length_insertDesc (x : String × ℕ) :
    ∀ l : List (String × ℕ), (insertDesc x l).length = l.length + 1 := by
  intro l
  induction l with
  | nil => rfl
  | cons y ys ih =>
    unfold insertDesc
    split
    · simp
    · simp [ih]

theorem length_sortDesc (rs : List (String × ℕ)) :
    (sortDesc rs).length = rs.length := by
  induction rs with
  | nil => rfl
  | cons x xs ih =>
    show (insertDesc x (sortDesc xs)).length = _
    rw [length_insertDesc, ih]; rfl

theorem mem_insertDesc {z x : String × ℕ} :
    ∀ {l : List (String × ℕ)}, z ∈ insertDesc x l ↔ z = x ∨ z ∈ l := by
  intro l
  induction l with
  | nil => simp [insertDesc]
  | cons y ys ih =>
    unfold insertDesc
    split
    · simp [or_comm, or_assoc, or_left_comm]
    · simp only [List.mem_cons, ih]
      tauto

theorem pairwise_insertDesc {x : String × ℕ} :
    ∀ {l : List (String × ℕ)},
      l.Pairwise (fun a b => b.2 ≤ a.2) →
      (insertDesc x l).Pairwise (fun a b => b.2 ≤ a.2) := by
  intro l
  induction l with
  | nil => intro _; simp [insertDesc]
  | cons y ys ih =>
    intro hp
    rw [List.pairwise_cons] at hp
    unfold insertDesc
    split
    · rename_i hyx
      rw [List.pairwise_cons]
      constructor
      · intro z hz
        rcases List.mem_cons.1 hz with hzy | hzys
        · exact hzy ▸ hyx
        · exact le_trans (hp.1 z hzys) hyx
      · rw [List.pairwise_cons]
        exact hp
    · rename_i hyx
      rw [List.pairwise_cons]
      constructor
      · intro z hz
        rcases mem_insertDesc.1 hz with hzx | hzys
        · subst hzx; omega
        · exact hp.1 z hzys
      · exact ih hp.2

theorem sortDesc_pairwise (rs : List (String × ℕ)) :
    (sortDesc rs).Pairwise (fun a b => b.2 ≤ a.2) := by
  induction rs with
  | nil => simp [sortDesc]
  | cons x xs ih => exact pairwise_insertDesc ih

theorem filter_insertDesc (x : String × ℕ) (v : ℕ) :
    ∀ l : List (String × ℕ),
      (insertDesc x l).filter (fun p => p.2 == v)
        = if x.2 = v then x :: l.filter (fun p => p.2 == v)
          else l.filter (fun p => p.2 == v) := by
  intro l
  induction l with
  | nil =>
    show [x].filter (fun p => p.2 == v) = _
    rw [List.filter_cons]
    by_cases hx : x.2 = v
    · simp [hx]
    · simp [hx]
  | cons y ys ih =>
    unfold insertDesc
    split
    · rename_i hyx
      by_cases hx : x.2 = v
      · simp [List.filter_cons, hx]
      · simp [List.filter_cons, hx]
    · rename_i hyx
      by_cases hx : x.2 = v
      · have hy : ¬ (y.2 = v) := by omega
        simp only [List.filter_cons, ih]
        simp [hx, hy]
      · simp only [List.filter_cons, ih]
        by_cases hy : y.2 = v
        · simp [hx, hy]
        · simp [hx, hy]

/-! ### Lemmas about the binary64 model -/

theorem log2F_spec : ∀ fuel n : ℕ, 1 ≤ n → n ≤ fuel →
    2 ^ log2F fuel n ≤ n ∧ n < 2 ^ (log2F fuel n + 1) := by
  intro fuel
  induction fuel with
  | zero => intro n h1 h2; omega
  | succ fuel ih =>
    intro n h1 h2
    by_cases h : 2 ≤ n
    · have hn2 : 1 ≤ n / 2 := by omega
      have hle : n / 2 ≤ fuel := by omega
      obtain ⟨ha, hb⟩ := ih (n / 2) hn2 hle
      unfold log2F
      rw [if_pos h]
      have e1 : 2 ^ (log2F fuel (n / 2) + 1) = 2 ^ log2F fuel (n / 2) * 2 :=
        pow_succ 2 (log2F fuel (n / 2))
      have e2 : 2 ^ (log2F fuel (n / 2) + 1 + 1) = 2 ^ (log2F fuel (n / 2) + 1) * 2 :=
        pow_succ 2 (log2F fuel (n / 2) + 1)
      omega
    · unfold log2F
      rw [if_neg h]
      simp only [pow_zero, zero_add, pow_one]
      omega

theorem natLog2_spec {n : ℕ} (h : 1 ≤ n) :
    2 ^ natLog2 n ≤ n ∧ n < 2 ^ (natLog2 n + 1) :=
  log2F_spec n n h (le_refl n)

theorem natLog2_eq {n a : ℕ} (h1 : 2 ^ a ≤ n) (h2 : n < 2 ^ (a + 1)) :
    natLog2 n = a := by
  have hn : 1 ≤ n := le_trans (Nat.one_le_pow a 2 (by norm_num)) h1
  obtain ⟨ha, hb⟩ := natLog2_spec hn
  rcases Nat.lt_or_ge (natLog2 n) a with hl | hg
  · exfalso
    have hs : natLog2 n + 1 ≤ a := by omega
    have := Nat.pow_le_pow_right (by norm_num : 1 ≤ 2) hs
    omega
  · rcases Nat.eq_or_lt_of_le hg with he | hl
    · omega
    · exfalso
      have hs : a + 1 ≤ natLog2 n := by omega
      have := Nat.pow_le_pow_right (by norm_num : 1 ≤ 2) hs
      omega

theorem natLog2_le_of_lt {v k : ℕ} (hv : 1 ≤ v) (h : v < 2 ^ (k + 1)) :
    natLog2 v ≤ k := by
  obtain ⟨ha, _⟩ := natLog2_spec hv
  by_contra hc
  have hs : k + 1 ≤ natLog2 v := by omega
  have := Nat.pow_le_pow_right (by norm_num : 1 ≤ 2) hs
  omega

theorem natLog2_mul_pow {v : ℕ} (hv : 1 ≤ v) (t : ℕ) :
    natLog2 (v * 2 ^ t) = natLog2 v + t := by
  obtain ⟨ha, hb⟩ := natLog2_spec hv
  apply natLog2_eq
  · rw [pow_add]
    exact Nat.mul_le_mul_right _ ha
  · rw [show natLog2 v + t + 1 = (natLog2 v + 1) + t by omega, pow_add]
    have hp : 0 < 2 ^ t := Nat.pos_pow_of_pos t (by norm_num)
    exact (Nat.mul_lt_mul_right hp).2 hb

theorem roundHalfEven_den_one (x : ℕ) : roundHalfEven x 1 = x := by
  unfold roundHalfEven
  rw [Nat.mod_one, Nat.div_one]
  norm_num

theorem roundHalfEven_dvd {x d : ℕ} (hd : 0 < d) (hdvd : d ∣ x) :
    roundHalfEven x d = x / d := by
  obtain ⟨c, rfl⟩ := hdvd
  unfold roundHalfEven
  rw [Nat.mul_mod_right]
  simp [hd]

theorem multOf_pos (suf : Option Char) : 1 ≤ multOf suf := by
  unfold multOf
  split <;> norm_num

/-- Key exactness fact: a value `v * 2^(-t)`-shaped input with `v < 2^53`
is rounded exactly (binary64 has 53 significand bits), and truncating the
result recovers `v`.  Both the conversion `float(int_string)` and the
product `float * multiplier` in `parse_view_count` are instances. -/
theorem fpExact {v : ℕ} (t : ℕ) (hv : 0 < v) (hv53 : v < 2 ^ 53) :
    fpRoundRat (v * 2 ^ t) 1 (-(t : ℤ)) =
      some ⟨v * 2 ^ (52 - natLog2 v), (natLog2 v : ℤ) - 52⟩ ∧
    truncFp ⟨v * 2 ^ (52 - natLog2 v), (natLog2 v : ℤ) - 52⟩ = v := by
  obtain ⟨hL, hL2⟩ := natLog2_spec hv
  have hL52 : natLog2 v ≤ 52 := natLog2_le_of_lt hv hv53
  have hpow_pos : ∀ s : ℕ, 0 < 2 ^ s := fun s => Nat.pos_pow_of_pos s (by norm_num)
  have hnum0 : v * 2 ^ t ≠ 0 := by positivity
  have hlog : natLog2 (v * 2 ^ t) = natLog2 v + t := natLog2_mul_pow hv t
  have hlog1 : natLog2 1 = 0 := rfl
  have hM52 : 2 ^ 52 ≤ v * 2 ^ (52 - natLog2 v) := by
    calc 2 ^ 52 = 2 ^ natLog2 v * 2 ^ (52 - natLog2 v) := by
          rw [← pow_add]; congr 1; omega
    _ ≤ v * 2 ^ (52 - natLog2 v) := Nat.mul_le_mul_right _ hL
  have hM53 : v * 2 ^ (52 - natLog2 v) < 2 ^ 53 := by
    calc v * 2 ^ (52 - natLog2 v) < 2 ^ (natLog2 v + 1) * 2 ^ (52 - natLog2 v) :=
          (Nat.mul_lt_mul_right (hpow_pos _)).2 hL2
    _ = 2 ^ 53 := by rw [← pow_add]; congr 1; omega
  have hge : geScaled (v * 2 ^ t) 1 ((natLog2 (v * 2 ^ t) : ℤ) - (natLog2 1 : ℤ)) = true := by
    rw [hlog, hlog1]
    unfold geScaled
    rw [if_pos (by omega : (0 : ℤ) ≤ ((natLog2 v + t : ℕ) : ℤ) - ((0 : ℕ) : ℤ))]
    apply decide_eq_true
    have ht : (((natLog2 v + t : ℕ) : ℤ) - ((0 : ℕ) : ℤ)).toNat = natLog2 v + t := by omega
    rw [ht, one_mul, pow_add]
    exact Nat.mul_le_mul_right _ hL
  have hexp : fpExp2 (v * 2 ^ t) 1 (-(t : ℤ)) = (natLog2 v : ℤ) - 52 := by
    unfold fpExp2
    rw [hge, if_pos rfl, hlog, hlog1]
    push_cast
    ring
  have hmax : max ((natLog2 v : ℤ) - 52) (-1074) = (natLog2 v : ℤ) - 52 :=
    max_eq_left (by omega)
  have hdiv : divRound (v * 2 ^ t) 1 (-(t : ℤ) - ((natLog2 v : ℤ) - 52))
      = v * 2 ^ (52 - natLog2 v) := by
    unfold divRound
    by_cases hc : (0 : ℤ) ≤ -(t : ℤ) - ((natLog2 v : ℤ) - 52)
    · rw [if_pos hc]
      have htn : (-(t : ℤ) - ((natLog2 v : ℤ) - 52)).toNat = 52 - natLog2 v - t := by omega
      rw [htn, roundHalfEven_den_one, mul_assoc, ← pow_add]
      congr 2
      omega
    · rw [if_neg hc]
      have htn : (-(-(t : ℤ) - ((natLog2 v : ℤ) - 52))).toNat = t + natLog2 v - 52 := by
        omega
      rw [htn, one_mul]
      have hle : t + natLog2 v - 52 ≤ t := by omega
      have hdvd : 2 ^ (t + natLog2 v - 52) ∣ v * 2 ^ t :=
        Dvd.dvd.mul_left (pow_dvd_pow 2 hle) v
      rw [roundHalfEven_dvd (hpow_pos _) hdvd,
        Nat.mul_div_assoc v (pow_dvd_pow 2 hle),
        Nat.pow_div hle (by norm_num)]
      congr 2
      omega
  constructor
  · unfold fpRoundRat
    rw [if_neg hnum0, hexp, hmax, hdiv]
    unfold fpPost
    rw [if_neg (by omega), if_neg (by omega)]
  · unfold truncFp
    by_cases hc : (0 : ℤ) ≤ (natLog2 v : ℤ) - 52
    · have h52 : natLog2 v = 52 := by omega
      rw [if_pos hc]
      have : (((natLog2 v : ℤ) - 52)).toNat = 0 := by omega
      rw [this, h52]
      simp
    · rw [if_neg hc]
      have : ((-((natLog2 v : ℤ) - 52))).toNat = 52 - natLog2 v := by omega
      rw [this, Nat.mul_div_assoc v (dvd_refl _), Nat.div_self (hpow_pos _), mul_one]

/-! ### Lemmas for case-insensitivity and whitespace tolerance -/

theorem isSpaceA_toLowerA (c : Char) : isSpaceA (toLowerA c) = isSpaceA c := by
  unfold toLowerA
  split <;> rfl

theorem comma_toLowerA (c : Char) : (toLowerA c != ',') = (c != ',') := by
  unfold toLowerA
  split <;> rfl

theorem lower_eq_dropWhile {l l2 : List Char}
    (h : l.map toLowerA = l2.map toLowerA) :
    (l.dropWhile isSpaceA).map toLowerA = (l2.dropWhile isSpaceA).map toLowerA := by
  induction l generalizing l2 with
  | nil =>
    have h2 : l2 = [] := by
      cases l2 with
      | nil => rfl
      | cons b t => simp at h
    subst h2; rfl
  | cons a t ih =>
    cases l2 with
    | nil => simp at h
    | cons b t2 =>
      simp only [List.map_cons, List.cons.injEq] at h
      obtain ⟨hab, ht⟩ := h
      have hsp : isSpaceA a = isSpaceA b := by
        rw [← isSpaceA_toLowerA a, ← isSpaceA_toLowerA b, hab]
      rw [List.dropWhile_cons, List.dropWhile_cons, hsp]
      by_cases hb : isSpaceA b = true
      · rw [if_pos hb, if_pos hb]
        exact ih ht
      · rw [if_neg hb, if_neg hb]
        simp only [List.map_cons, hab, ht]

theorem lower_eq_stripA {l l2 : List Char} (h : l.map toLowerA = l2.map toLowerA) :
    (stripA l).map toLowerA = (stripA l2).map toLowerA := by
  unfold stripA
  have h1 := lower_eq_dropWhile h
  have h2 : ((l.dropWhile isSpaceA).reverse).map toLowerA
      = ((l2.dropWhile isSpaceA).reverse).map toLowerA := by
    rw [List.map_reverse, List.map_reverse, h1]
  have h3 := lower_eq_dropWhile h2
  rw [List.map_reverse, List.map_reverse, h3]

theorem lower_eq_normalize {l l2 : List Char} (h : l.map toLowerA = l2.map toLowerA) :
    normalizeText l = normalizeText l2 := by
  unfold normalizeText
  rw [lower_eq_stripA h]

theorem parseChars_lower_invariant {l l2 : List Char}
    (h : l.map toLowerA = l2.map toLowerA) : parseChars l = parseChars l2 := by
  have hlen : l.length = l2.length := by
    have := congrArg List.length h
    simpa using this
  unfold parseChars
  by_cases he : l = []
  · subst he
    have h2 : l2 = [] := List.length_eq_zero.1 (by simpa using hlen.symm)
    subst h2; rfl
  · have he2 : l2 ≠ [] := by
      intro h2; subst h2
      exact he (List.length_eq_zero.1 (by simpa using hlen))
    rw [if_neg he, if_neg he2, lower_eq_normalize h]

theorem dropWhile_spaces_append :
    ∀ (pre x : List Char), (∀ c ∈ pre, isSpaceA c = true) →
      (pre ++ x).dropWhile isSpaceA = x.dropWhile isSpaceA := by
  intro pre
  induction pre with
  | nil => intro x _; rfl
  | cons a t ih =>
    intro x hpre
    rw [List.cons_append, List.dropWhile_cons, if_pos (hpre a (by simp))]
    exact ih x (fun c hc => hpre c (by simp [hc]))

theorem dropWhile_eq_nil_of_spaces :
    ∀ {l : List Char}, (∀ c ∈ l, isSpaceA c = true) → l.dropWhile isSpaceA = [] := by
  intro l
  induction l with
  | nil => intro _; rfl
  | cons a t ih =>
    intro h
    rw [List.dropWhile_cons, if_pos (h a (by simp))]
    exact ih (fun c hc => h c (by simp [hc]))

theorem spaces_of_dropWhile_eq_nil :
    ∀ {l : List Char}, l.dropWhile isSpaceA = [] → ∀ c ∈ l, isSpaceA c = true := by
  intro l
  induction l with
  | nil => intro _ c hc; simp at hc
  | cons a t ih =>
    intro h c hc
    rw [List.dropWhile_cons] at h
    by_cases ha : isSpaceA a = true
    · rw [if_pos ha] at h
      rcases List.mem_cons.1 hc with rfl | hct
      · exact ha
      · exact ih h c hct
    · rw [if_neg ha] at h
      simp at h

theorem dropWhile_append_of_ne_nil :
    ∀ (x post : List Char), x.dropWhile isSpaceA ≠ [] →
      (x ++ post).dropWhile isSpaceA = x.dropWhile isSpaceA ++ post := by
  intro x
  induction x with
  | nil => intro post h; exact absurd rfl h
  | cons a t ih =>
    intro post h
    by_cases ha : isSpaceA a = true
    · rw [List.dropWhile_cons, if_pos ha] at h
      rw [List.cons_append, List.dropWhile_cons, if_pos ha, List.dropWhile_cons, if_pos ha]
      exact ih post h
    · simp only [List.cons_append, List.dropWhile_cons, if_neg ha]

theorem stripA_prepend_spaces {pre x : List Char}
    (hpre : ∀ c ∈ pre, isSpaceA c = true) : stripA (pre ++ x) = stripA x := by
  unfold stripA
  rw [dropWhile_spaces_append pre x hpre]

theorem stripA_append_spaces {x post : List Char}
    (hpost : ∀ c ∈ post, isSpaceA c = true) : stripA (x ++ post) = stripA x := by
  by_cases hx : x.dropWhile isSpaceA = []
  · have hxs : ∀ c ∈ x, isSpaceA c = true := spaces_of_dropWhile_eq_nil hx
    have h1 : (x ++ post).dropWhile isSpaceA = [] := by
      apply dropWhile_eq_nil_of_spaces
      intro c hc
      rcases List.mem_append.1 hc with h | h
      · exact hxs c h
      · exact hpost c h
    unfold stripA
    rw [h1, hx]
  · unfold stripA
    rw [dropWhile_append_of_ne_nil x post hx, List.reverse_append,
      dropWhile_spaces_append post.reverse _
        (fun c hc => hpost c (List.mem_reverse.1 hc))]

theorem parseChars_ws_invariant (l pre post : List Char)
    (hpre : ∀ c ∈ pre, isSpaceA c = true) (hpost : ∀ c ∈ post, isSpaceA c = true) :
    parseChars (pre ++ l ++ post) = parseChars l := by
  by_cases hl : l = []
  · subst hl
    rw [List.append_nil]
    by_cases hpp : pre ++ post = []
    · rw [hpp]
    · have hall : ∀ c ∈ pre ++ post, isSpaceA c = true := by
        intro c hc
        rcases List.mem_append.1 hc with h | h
        · exact hpre c h
        · exact hpost c h
      have hstrip : stripA (pre ++ post) = [] := by
        unfold stripA
        rw [dropWhile_eq_nil_of_spaces hall]
        rfl
      unfold parseChars
      rw [if_neg hpp]
      unfold normalizeText
      rw [hstrip]
      rfl
  · have hne : pre ++ l ++ post ≠ [] := by
      intro h
      have hlen := congrArg List.length h
      simp only [List.length_append, List.length_nil] at hlen
      have hz : l.length = 0 := by omega
      exact hl (List.length_eq_zero.1 hz)
    unfold parseChars
    rw [if_neg hne, if_neg hl]
    have hstrip : stripA (pre ++ l ++ post) = stripA l := by
      rw [List.append_assoc, stripA_prepend_spaces hpre, stripA_append_spaces hpost]
    unfold normalizeText
    rw [hstrip]

theorem take_min {α : Type} (l : List α) (n : ℕ) :
    l.take (min n l.length) = l.take n := by
  rw [List.take_eq_take]
  omega

/-- The tail of `parse_view_count` after a successful match with an integer
token: both binary64 roundings are exact below `2^53`, so the code returns
exactly `N * mult`. -/
theorem pipeline_eq (N mult : ℕ) (hN : 0 < N) (hmult : 1 ≤ mult)
    (hlt : N * mult < 2 ^ 53) :
    (match fpRoundRat N 1 0 with
     | none => (Except.error () : Except Unit (Option ℕ))
     | some f =>
       match fpRoundRat (f.m * mult) 1 f.e with
       | none => Except.error ()
       | some p => Except.ok (some (truncFp p))) = Except.ok (some (N * mult)) := by
  have hN53 : N < 2 ^ 53 := lt_of_le_of_lt (Nat.le_mul_of_pos_right N (by omega)) hlt
  obtain ⟨hf1, _⟩ := fpExact 0 hN hN53
  simp only [pow_zero, mul_one, Nat.cast_zero, neg_zero] at hf1
  rw [hf1]
  dsimp only
  have hL52 : natLog2 N ≤ 52 := natLog2_le_of_lt hN hN53
  have hvpos : 0 < N * mult := Nat.mul_pos hN (by omega)
  obtain ⟨hf2, htr⟩ := fpExact (52 - natLog2 N) hvpos hlt
  have hcast : (-(((52 - natLog2 N : ℕ)) : ℤ)) = (natLog2 N : ℤ) - 52 := by omega
  rw [hcast] at hf2
  have hcomm : N * mult * 2 ^ (52 - natLog2 N) = N * 2 ^ (52 - natLog2 N) * mult := by
    ring
  rw [hcomm] at hf2
  rw [hf2]
  dsimp only
  rw [htr]

/-- Stability of the descending sort: entries with any fixed view count keep
their original (first-seen) relative order. -/
theorem sortDesc_filter (v : ℕ) :
    ∀ rs : List (String × ℕ),
      (sortDesc rs).filter (fun p => p.2 == v) = rs.filter (fun p => p.2 == v) := by
  intro rs
  induction rs with
  | nil => rfl
  | cons x xs ih =>
    show (insertDesc x (sortDesc xs)).filter _ = _
    rw [filter_insertDesc, List.filter_cons, ih]
    by_cases hx : x.2 = v
    · simp [hx]
    · simp [hx]

/-! ## Claim theorems -/

/-- C1 counterexample: with `topN = -1` (so `topN ≤ 0`) and a nonempty
ResultSet the ranked top sequence produced by the report builder is *not*
empty: Python's `if args.top` treats every nonzero integer as truthy and the
slice `[:-1]` keeps all but the last sorted entry. -/
theorem report_top_nonpositive_cex :
    topItems [("a", 1), ("b", 2)] (-1) = [("b", 2)] ∧
    topItems [("a", 1), ("b", 2)] (-1) ≠ [] := by
  exact ⟨rfl, by decide⟩

/-- C1 (corrected): the ranked top sequence is empty iff `topN = 0` or the
ResultSet is empty; for `topN > 0` it is exactly the first `min(topN, count)`
entries of the stable descending ordering; for `topN < 0` (Python slice
semantics) it is that ordering with its last `min(-topN, count)` entries
removed. -/
theorem report_top_sequence (rs : List (String × ℕ)) (topN : ℤ) :
    ((topN = 0 ∨ rs = []) → topItems rs topN = []) ∧
    (0 < topN →
      topItems rs topN = (sortDesc rs).take (min topN.toNat rs.length)) ∧
    (topN < 0 →
      topItems rs topN = (sortDesc rs).take (rs.length - (-topN).toNat)) := by
  refine ⟨?_, ?_, ?_⟩
  · intro h
    unfold topItems
    rcases h with h | h
    · rw [if_neg]
      intro hc
      exact hc.1 h
    · subst h
      simp
  · intro h
    cases rs with
    | nil => simp [topItems, sortDesc]
    | cons p t =>
      unfold topItems
      rw [if_pos ⟨by omega, by simp⟩]
      unfold pySliceTo
      rw [if_pos (by omega)]
      rw [← length_sortDesc (p :: t), take_min]
  · intro h
    cases rs with
    | nil => simp [topItems, sortDesc]
    | cons p t =>
      unfold topItems
      rw [if_pos ⟨by omega, by simp⟩]
      unfold pySliceTo
      rw [if_neg (by omega), length_sortDesc]

/-- C1 witness. -/
theorem report_top_sequence_witness :
    topItems [("a", 5), ("b", 9)] 1 = [("b", 9)] := by
  have h := (report_top_sequence [("a", 5), ("b", 9)] 1).2.1 (by norm_num)
  rw [h]
  rfl

/-- C2 counterexample: the parser accepts "1.023k views" (token `1.023`,
multiplier 1000); the exact product is 1023 so its floor is 1023, but the
code computes `int(1.023 * 1000) = 1022` because the binary64 double nearest
to 1.023 lies just below it and the product rounds to just below 1023. -/
theorem parse_floor_cex :
    parse_view_count "1.023k views" = .ok (some 1022) ∧
    natOfDigits ['1', '0', '2', '3'] * multOf (some 'k') / 10 ^ 3 = 1023 ∧
    (1022 : ℕ) ≠ 1023 := by
  exact ⟨rfl, rfl, by decide⟩

/-- C2 (corrected): for every accepted input the result is the truncation
toward zero of the binary64 product `float(token) * multiplier` (each
rounding to nearest, ties to even), not in general the floor of the exact
product.  When the matched token has no fractional part and
token × multiplier < 2^53, both roundings are exact, so the result is
exactly token × multiplier (which equals the exact floor); the spec's
decimal example also holds: "1.23M views" yields exactly 1,230,000. -/
theorem parse_magnitude_product :
    (∀ (s : String) (ds : List Char) (suf : Option Char),
      s.data ≠ [] →
      searchView (normalizeText s.data) = some (ds, [], suf) →
      natOfDigits ds * multOf suf < 2 ^ 53 →
      parse_view_count s = .ok (some (natOfDigits ds * multOf suf))) ∧
    parse_view_count "1.23M views" = .ok (some 1230000) := by
  constructor
  · intro s ds suf hne hsearch hlt
    unfold parse_view_count parseChars
    rw [if_neg hne, hsearch]
    simp only [List.append_nil, List.length_nil, pow_zero]
    by_cases hN : natOfDigits ds = 0
    · rw [hN]
      have h1 : fpRoundRat 0 1 0 = some ⟨0, 0⟩ := rfl
      rw [h1]
      dsimp only
      rw [Nat.zero_mul, h1]
      rfl
    · exact pipeline_eq (natOfDigits ds) (multOf suf) (Nat.pos_of_ne_zero hN)
        (multOf_pos suf) hlt
  · rfl

/-- C2 witness. -/
theorem parse_magnitude_product_witness :
    parse_view_count "12k views" = .ok (some 12000) := by
  have h := parse_magnitude_product.1 "12k views" ['1', '2'] (some 'k')
    (by decide) (by rfl) (by decide)
  exact h.trans (by rfl)

/-- C3 counterexample: with `maxRounds = 3`, `stableThreshold = 3` and a
card source that never yields anything, the streak reaches the threshold in
round 3 = maxRounds; the loop takes the stability break (`converged`), yet it
does not stop before exhausting `maxRounds`: it performs all 3 rounds, so
"stops early exactly when the streak reaches the threshold" fails. -/
theorem convergence_exactly_when_cex :
    (scroll_and_collect emptySource 3 0 3).rounds = 3 ∧
    (scroll_and_collect emptySource 3 0 3).converged = true ∧
    ¬ ((scroll_and_collect emptySource 3 0 3).rounds < (3 : ℤ).toNat) ∧
    (3 : ℤ) ≤ streakAt emptySource 3 := by
  exact ⟨rfl, rfl, by decide, by decide⟩

/-- C3 (corrected): the loop performs at most `max(maxRounds, 0)` rounds, and
it performs strictly fewer than `maxRounds` rounds exactly when the no-growth
streak reaches `stableThreshold` at some round strictly before round
`maxRounds` (reaching the threshold exactly at round `maxRounds` still takes
the stability break, but `maxRounds` rounds have then been performed).  The
claim's scenario holds: with a card source yielding no new URLs after round 2
and threshold 3, the loop stops at round 5, not at `maxRounds = 40`. -/
theorem convergence_termination (b : ℕ → List (String × ℕ)) (ms : ℤ) (sp : ℚ)
    (sr : ℤ) :
    (scroll_and_collect b ms sp sr).rounds ≤ ms.toNat ∧
    ((scroll_and_collect b ms sp sr).rounds < ms.toNat ↔
      ∃ k, 1 ≤ k ∧ k < ms.toNat ∧ sr ≤ streakAt b k) ∧
    (scroll_and_collect twoRoundSource 40 sp 3).rounds = 5 := by
  rw [scroll_and_collect_eq]
  cases hf : (List.range' 1 ms.toNat).find? (fun k => decide (sr ≤ streakAt b k)) with
  | some k =>
    obtain ⟨h1, h2, h3, h4⟩ := find?_range'_min _ ms.toNat 1 k hf
    dsimp only
    refine ⟨by omega, ?_, rfl⟩
    constructor
    · intro hk
      exact ⟨k, h1, hk, of_decide_eq_true h3⟩
    · intro ⟨j, hj1, hj2, hj3⟩
      by_contra hc
      have hjk : j < k := by omega
      have hfalse := h4 j hj1 hjk
      rw [decide_eq_false_iff_not] at hfalse
      exact hfalse hj3
  | none =>
    dsimp only
    refine ⟨le_refl _, ?_, rfl⟩
    constructor
    · intro hk
      exact absurd hk (lt_irrefl _)
    · intro ⟨j, hj1, hj2, hj3⟩
      exfalso
      have hsome := (find?_range'_isSome (fun k => decide (sr ≤ streakAt b k))
        ms.toNat 1).2 ⟨j, hj1, by omega, decide_eq_true hj3⟩
      rw [hf] at hsome
      simp at hsome

/-- C3 witness. -/
theorem convergence_termination_witness :
    (scroll_and_collect twoRoundSource 40 0 3).rounds ≤ (40 : ℤ).toNat ∧
    (scroll_and_collect twoRoundSource 40 0 3).rounds = 5 := by
  have h := convergence_termination twoRoundSource 40 0 3
  exact ⟨h.1, h.2.2⟩

/-- C4 (confirmed): first-seen-wins is an invariant of the ResultSet: once a
URL has an entry, any later observation — one more insert (same pass) or a
whole later batch (cross-pass merge) — never changes the stored count, for
all pairs of values; and inserting the same URL twice with different values
keeps the first. -/
theorem first_seen_wins :
    (∀ (rs : List (String × ℕ)) (u : String) (v : ℕ),
      findVal rs u = some v →
      (∀ (u2 : String) (w : ℕ), findVal (rsInsert rs u2 w) u = some v) ∧
      (∀ batch : List (String × ℕ), findVal (mergeBatch rs batch) u = some v)) ∧
    (∀ (rs : List (String × ℕ)) (u : String) (v w : ℕ),
      findVal rs u = none →
      findVal (rsInsert (rsInsert rs u v) u w) u = some v) := by
  constructor
  · intro rs u v h
    exact ⟨fun u2 w => findVal_rsInsert h u2 w, fun batch => findVal_mergeBatch h batch⟩
  · intro rs u v w h
    rw [rsInsert_of_absent v h]
    exact findVal_rsInsert (findVal_last v h) u w

/-- C4 witness. -/
theorem first_seen_wins_witness :
    findVal (rsInsert [("a", 1)] "a" 9) "a" = some 1 ∧
    findVal (rsInsert (rsInsert [] "b" 3) "b" 4) "b" = some 3 := by
  constructor
  · exact (first_seen_wins.1 [("a", 1)] "a" 1 (by rfl)).1 "a" 9
  · exact first_seen_wins.2 [] "b" 3 4 (by rfl)

/-- C5 (confirmed): the documented parser examples, including the two
rejections. -/
theorem parser_examples :
    parse_view_count "1,234 views" = .ok (some 1234) ∧
    parse_view_count "12K views" = .ok (some 12000) ∧
    parse_view_count "1.2M views" = .ok (some 1200000) ∧
    parse_view_count "3.4B views" = .ok (some 3400000000) ∧
    parse_view_count "" = .ok none ∧
    parse_view_count "no data here" = .ok none :=
  ⟨rfl, rfl, rfl, rfl, rfl, rfl⟩

/-- C6 (confirmed): the parser is case-insensitive (texts with the same
lowercasing parse identically — changing the letter case of any characters
never changes the result) and whitespace-tolerant (adding leading or
trailing whitespace never changes the result). -/
theorem parser_case_ws_insensitive :
    (∀ l l2 : List Char, l.map toLowerA = l2.map toLowerA →
      parseChars l = parseChars l2) ∧
    (∀ (l pre post : List Char), (∀ c ∈ pre, isSpaceA c = true) →
      (∀ c ∈ post, isSpaceA c = true) →
      parseChars (pre ++ l ++ post) = parseChars l) :=
  ⟨fun _ _ h => parseChars_lower_invariant h,
   fun l pre post h1 h2 => parseChars_ws_invariant l pre post h1 h2⟩

/-- C6 witness (in particular `parse("12k VIEWS") = parse("12K views")`). -/
theorem parser_case_ws_insensitive_witness :
    parse_view_count "12k VIEWS" = parse_view_count "12K views" ∧
    parseChars ([' ', ' '] ++ "12K views".data ++ [' ']) = parseChars "12K views".data := by
  constructor
  · exact parser_case_ws_insensitive.1 "12k VIEWS".data "12K views".data (by decide)
  · exact parser_case_ws_insensitive.2 "12K views".data [' ', ' '] [' ']
      (by decide) (by decide)

/-- C7 (confirmed; `topN` ranges over the naturals, as "topN ≤ count" in the
claim indicates): the report total is the sum of all stored view counts and
its count is the number of entries; and for every `topN ≤ count` the top
sequence has length `topN`, its view counts are non-increasing, and entries
with equal view counts appear in first-seen order (the filtered subsequence
at any fixed count value is an initial segment of the ResultSet's). -/
theorem report_totals_and_ranking (rs : List (String × ℕ)) :
    totalViews rs = (rs.map (fun p => p.2)).sum ∧
    reportCount rs = rs.length ∧
    ∀ topN : ℕ, topN ≤ rs.length →
      (topItems rs (topN : ℤ)).length = topN ∧
      (topItems rs (topN : ℤ)).Pairwise (fun a b => b.2 ≤ a.2) ∧
      ∀ v : ℕ, ∃ rest, rs.filter (fun p => p.2 == v)
        = (topItems rs (topN : ℤ)).filter (fun p => p.2 == v) ++ rest := by
  refine ⟨rfl, rfl, ?_⟩
  intro topN hle
  by_cases h0 : topN = 0
  · subst h0
    have htop : topItems rs ((0 : ℕ) : ℤ) = [] := by
      unfold topItems
      rw [if_neg]
      intro hc
      exact hc.1 (by norm_num)
    rw [htop]
    refine ⟨rfl, List.Pairwise.nil, ?_⟩
    intro v
    exact ⟨rs.filter (fun p => p.2 == v), by simp⟩
  · have hrs : 0 < rs.length := by omega
    have htop : topItems rs ((topN : ℕ) : ℤ) = (sortDesc rs).take topN := by
      unfold topItems
      rw [if_pos ⟨by omega, hrs⟩]
      unfold pySliceTo
      rw [if_pos (by omega)]
      rfl
    rw [htop]
    refine ⟨?_, ?_, ?_⟩
    · rw [List.length_take, length_sortDesc]
      omega
    · exact List.Pairwise.sublist (List.take_sublist _ _) (sortDesc_pairwise rs)
    · intro v
      refine ⟨((sortDesc rs).drop topN).filter (fun p => p.2 == v), ?_⟩
      rw [← List.filter_append, List.take_append_drop, sortDesc_filter]

/-- C7 witness. -/
theorem report_totals_and_ranking_witness :
    (topItems [("a", 1), ("b", 2)] ((2 : ℕ) : ℤ)).length = 2 :=
  ((report_totals_and_ranking [("a", 1), ("b", 2)]).2.2 2 (by norm_num)).1

/-- C8 (confirmed): once the streak reaches the threshold — at the first
such round `k` — the loop ends immediately at round `k` (`converged`), has
issued exactly `k - 1` scroll commands, and the event trace ends with the
round-`k` extraction: no scroll command is ever issued at or after the
converging round. -/
theorem convergence_stops_immediately (b : ℕ → List (String × ℕ)) (ms : ℤ)
    (sp : ℚ) (sr : ℤ) (k : ℕ)
    (hf : (List.range' 1 ms.toNat).find? (fun j => decide (sr ≤ streakAt b j))
      = some k) :
    (scroll_and_collect b ms sp sr).rounds = k ∧
    (scroll_and_collect b ms sp sr).converged = true ∧
    (scroll_and_collect b ms sp sr).scrolls = k - 1 ∧
    (scroll_and_collect b ms sp sr).events
      = evRun 0 (k - 1) ++ [LEvent.extract (k - 1)] := by
  rw [scroll_and_collect_eq, hf]
  exact ⟨rfl, rfl, rfl, rfl⟩

/-- C8 witness. -/
theorem convergence_stops_immediately_witness :
    (scroll_and_collect emptySource 10 0 2).rounds = 2 ∧
    (scroll_and_collect emptySource 10 0 2).converged = true ∧
    (scroll_and_collect emptySource 10 0 2).scrolls = 1 ∧
    (scroll_and_collect emptySource 10 0 2).events
      = evRun 0 1 ++ [LEvent.extract 1] := by
  have h := convergence_stops_immediately emptySource 10 0 2 2 (by decide)
  exact ⟨h.1, h.2.1, by rw [h.2.2.1], by rw [h.2.2.2]⟩

/-- C9 (confirmed): with `stableThreshold ≤ 0` and `maxRounds ≥ 1` the loop
performs exactly one extraction round, never scrolls, converges, and returns
the first round's batch (merged into the empty set; identically the batch
when its URLs are distinct, which extraction guarantees) — even when that
first round strictly grew the ResultSet. -/
theorem loop_nonpositive_threshold (b : ℕ → List (String × ℕ)) (ms : ℤ)
    (sp : ℚ) (sr : ℤ) (hsr : sr ≤ 0) (hms : 1 ≤ ms) :
    scroll_and_collect b ms sp sr
      = ⟨mergeBatch [] (b 0), 1, 0, true, [LEvent.extract 0]⟩ ∧
    (((b 0).map Prod.fst).Nodup → mergeBatch [] (b 0) = b 0) := by
  constructor
  · rw [scroll_and_collect_eq]
    have hp : (fun j => decide (sr ≤ streakAt b j)) 1 = true := by
      apply decide_eq_true
      show sr ≤ streakAt b 1
      unfold streakAt
      have h0 : streakAt b 0 = 0 := rfl
      split
      · omega
      · omega
    have hms1 : ms.toNat = (ms.toNat - 1) + 1 := by omega
    have hfind : (1 :: List.range' (1 + 1) (ms.toNat - 1)).find?
        (fun j => decide (sr ≤ streakAt b j)) = some 1 :=
      List.find?_cons_of_pos _ hp
    rw [hms1, List.range'_succ 1 (ms.toNat - 1) 1, hfind]
    rfl
  · intro hnd
    have h := mergeBatch_of_nodup (b 0) []
    simp only [List.map_nil, List.nil_append] at h
    rw [h hnd]

/-- C9 witness. -/
theorem loop_nonpositive_threshold_witness :
    scroll_and_collect oneCardSource 5 0 0
      = ⟨[("https://www.youtube.com/watch?v=a", 7)], 1, 0, true,
         [LEvent.extract 0]⟩ := by
  have h := loop_nonpositive_threshold oneCardSource 5 0 0 (by norm_num) (by norm_num)
  exact h.1.trans (by rfl)

/-- C10 (confirmed): with `maxRounds ≤ 0` the loop returns the empty
ResultSet, performing no extraction and issuing no scroll
(`range(max_scrolls)` is empty). -/
theorem loop_nonpositive_rounds (b : ℕ → List (String × ℕ)) (ms : ℤ) (sp : ℚ)
    (sr : ℤ) (hms : ms ≤ 0) :
    scroll_and_collect b ms sp sr = ⟨[], 0, 0, false, []⟩ := by
  unfold scroll_and_collect
  have h0 : ms.toNat = 0 := by omega
  rw [h0]
  rfl

/-- C10 witness. -/
theorem loop_nonpositive_rounds_witness :
    scroll_and_collect oneCardSource (-2) 0 3 = ⟨[], 0, 0, false, []⟩ :=
  loop_nonpositive_rounds oneCardSource (-2) 0 3 (by norm_num)
